import Mathlib

/-!
Verification of the cursed-maze rendering core (src/world, src/render.rs,
src/curses_util/draw_2d.rs) against its natural-language specification.

Modelling conventions:
* `f64` values are embedded as real numbers (`ℝ`); arithmetic is exact.
  Where the behaviour of the Rust code hinges on IEEE NaN (namely
  `sqrt` of a negative argument, whose result poisons every later
  comparison and panics `NotNan::new`), the NaN condition is tracked
  explicitly as a predicate on the (real-valued) argument of `sqrt`.
* `i32` values are embedded as `ℤ`.  Rust `i32` division truncates
  toward zero, so it is embedded as `Int.tdiv`.  A Rust `as i32` cast
  of a float truncates toward zero, embedded as `ftrunc` below
  (saturation at the `i32` limits is not modelled; every value reached
  in this development is tiny).
* Rust `%` on floats (`fmod`) is exact on reals: `a - w * trunc (a/w)`.
* The rasterisation code (`draw_2d.rs`) only ever divides integers, so
  it is embedded computably with `ℚ` accumulators, exactly following
  the source's DDA loops.
* Painting (`mvaddch`) is modelled by returning the list of painted
  cells / emitted primitive calls in order, instead of writing to a
  screen buffer.
-/

namespace CursedMaze

/-! ## Generic float helpers: truncation, float `%`, `normalize_range` -/

/-- Truncation toward zero, the semantics of Rust's `as i32` cast and of
the integer part taken by float `%`. -/
def ftrunc {α : Type} [LinearOrderedField α] [FloorRing α] (x : α) : ℤ :=
  if 0 ≤ x then ⌊x⌋ else ⌈x⌉

/-- Rust's `%` on floats (IEEE `fmod`, which is exact):
`a - w * trunc (a / w)`. -/
def fmod {α : Type} [LinearOrderedField α] [FloorRing α] (a w : α) : α :=
  a - w * (ftrunc (a / w) : α)

/-- Embedding of `normalize_range` from `src/world/util.rs`.  The Rust
function takes a `Range<f64>`; here the range is passed as its two
endpoints. -/
def normalize_range {α : Type} [LinearOrderedField α] [FloorRing α]
    (original_value range_start range_end : α) : α :=
  let range_width := range_end - range_start
  let aligned_value := original_value - range_start
  let normalized_value := fmod aligned_value range_width
  let normalized_angle :=
    if 0 < normalized_value then normalized_value else normalized_value + range_width
  normalized_angle + range_start

/-! ## 2D rasterisation primitives (`src/curses_util/draw_2d.rs`) -/

/-- A coordinate in screen space (`Coordinate` in `draw_2d.rs`). -/
structure Coordinate where
  row : ℤ
  col : ℤ
deriving DecidableEq, Repr

/-- `Coordinate::coord_shift`. -/
def Coordinate.coord_shift (self : Coordinate) (row_change col_change : ℤ) : Coordinate :=
  ⟨self.row + row_change, self.col + col_change⟩

/-- One `mvaddch` call: the painted cell and the character written. -/
structure Cell where
  row : ℤ
  col : ℤ
  ch : Char
deriving DecidableEq, Repr

/-- The catch-up `while rows_left_to_change != 0` loop inside `draw_line`:
paints `'#'` (hard-coded in the source) at the current position and steps
the row by `row_move` until the counter is used up.  The Rust loop
terminates after `|rows_left|` steps whenever `row_move` has the sign of
`rows_left` (the only reachable situation); the fuel argument makes the
recursion total with exactly that bound. -/
def ddaCatchAux : ℕ → ℤ → ℤ → ℤ → ℤ → List Cell × ℤ
  | 0, _, _, row, _ => ([], row)
  | fuel + 1, rows_left, row_move, row, col =>
    if rows_left = 0 then ([], row)
    else
      let rest := ddaCatchAux fuel (rows_left - row_move) row_move (row + row_move) col
      (⟨row, col, '#'⟩ :: rest.1, rest.2)

/-- The `for idx in 0..=col_change` loop of `draw_line`'s general case:
`n` columns remain, `col` is the current column, `total` the accumulated
fractional row change, `row` the current row. -/
def ddaLoop (fill_char : Char) (slope : ℚ) (row_move : ℤ) :
    ℕ → ℤ → ℚ → ℤ → List Cell
  | 0, _, _, _ => []
  | n + 1, col, total, row =>
    let total' := total + slope
    if 1 ≤ |total'| then
      let k := ftrunc total'
      let stepped := ddaCatchAux k.natAbs k row_move row col
      ⟨row, col, fill_char⟩ ::
        (stepped.1 ++ ddaLoop fill_char slope row_move n (col + 1) (total' - (k : ℚ)) stepped.2)
    else
      ⟨row, col, fill_char⟩ :: ddaLoop fill_char slope row_move n (col + 1) total' row

/-- Embedding of `draw_line` from `draw_2d.rs`, returning the painted
cells in order. -/
def draw_line (f t : Coordinate) (fill_char : Char) : List Cell :=
  let p := if f.col < t.col then (f, t) else (t, f)
  let from_lowcol := p.1
  let to_highcol := p.2
  let col_change := to_highcol.col - from_lowcol.col
  let row_change := to_highcol.row - from_lowcol.row
  if col_change = 0 then
    (List.range (max from_lowcol.row to_highcol.row - min from_lowcol.row to_highcol.row).toNat).map
      (fun (i : ℕ) => ⟨min from_lowcol.row to_highcol.row + (i : ℤ), from_lowcol.col, fill_char⟩)
  else
    let row_change_per_col : ℚ := (row_change : ℚ) / (col_change : ℚ)
    let row_move : ℤ := if 0 < row_change then 1 else -1
    ddaLoop fill_char row_change_per_col row_move (col_change.toNat + 1) from_lowcol.col 0 from_lowcol.row

/-- The error type `RegionFillErr` of `draw_2d.rs`. -/
inductive RegionFillErr where
  | TopAndBottomDoNotAlign : RegionFillErr
  | TopIsBelowBottom : RegionFillErr
deriving DecidableEq, Repr

/-- The error type `TriangleFillErr` of `draw_2d.rs` (`part` is the `i8`
tag of which half of the triangle split failed). -/
structure TriangleFillErr where
  part : Option ℤ
  top_start : Coordinate
  top_end : Coordinate
  bottom_start : Coordinate
  bottom_end : Coordinate
  fill_err : RegionFillErr
deriving DecidableEq, Repr

/-- The `for idx in 0..=horiz_change` loop of `fill_region_between_lines`:
at each column paint rows `top_row..=bottom_row`, then advance the two
DDA accumulators (note the source uses the strict test `> 1.0` here,
unlike `draw_line`'s `>= 1.0`). -/
def regionLoop (fill_char : Char) (top_slope bottom_slope : ℚ) :
    ℕ → ℤ → ℚ → ℚ → ℤ → ℤ → List Cell
  | 0, _, _, _, _, _ => []
  | n + 1, col, top_acc, bottom_acc, top_row, bottom_row =>
    let cells := (List.range (bottom_row - top_row + 1).toNat).map
      (fun (i : ℕ) => (⟨top_row + (i : ℤ), col, fill_char⟩ : Cell))
    let top_acc' := top_acc + top_slope
    let bottom_acc' := bottom_acc + bottom_slope
    let tstep : ℤ × ℚ :=
      if 1 < |top_acc'| then (top_row + ftrunc top_acc', top_acc' - (ftrunc top_acc' : ℚ))
      else (top_row, top_acc')
    let bstep : ℤ × ℚ :=
      if 1 < |bottom_acc'| then (bottom_row + ftrunc bottom_acc', bottom_acc' - (ftrunc bottom_acc' : ℚ))
      else (bottom_row, bottom_acc')
    cells ++ regionLoop fill_char top_slope bottom_slope n (col + 1) tstep.2 bstep.2 tstep.1 bstep.1

/-- Embedding of `fill_region_between_lines` from `draw_2d.rs`. -/
def fill_region_between_lines (top_line_start top_line_end bottom_line_start bottom_line_end : Coordinate)
    (fill_char : Char) : Except RegionFillErr (List Cell) :=
  let tp := if top_line_end.col < top_line_start.col then (top_line_end, top_line_start)
    else (top_line_start, top_line_end)
  let top_leftmost := tp.1
  let top_rightmost := tp.2
  let bp := if bottom_line_end.col < bottom_line_start.col then (bottom_line_end, bottom_line_start)
    else (bottom_line_start, bottom_line_end)
  let bottom_leftmost := bp.1
  let bottom_rightmost := bp.2
  if top_leftmost.col ≠ bottom_leftmost.col ∨ top_rightmost.col ≠ bottom_rightmost.col then
    .error .TopAndBottomDoNotAlign
  else if bottom_leftmost.row < top_leftmost.row ∨ bottom_rightmost.row < top_rightmost.row then
    .error .TopIsBelowBottom
  else
    let horiz_change := top_rightmost.col - top_leftmost.col
    let top_vertchange := top_rightmost.row - top_leftmost.row
    let top_vertchange_per_col : ℚ := (top_vertchange : ℚ) / (horiz_change : ℚ)
    let bottom_vertchange := bottom_rightmost.row - bottom_leftmost.row
    let bottom_vertchange_per_col : ℚ := (bottom_vertchange : ℚ) / (horiz_change : ℚ)
    .ok (regionLoop fill_char top_vertchange_per_col bottom_vertchange_per_col
      (horiz_change.toNat + 1) top_leftmost.col 0 0 top_leftmost.row bottom_leftmost.row)

/-- A primitive painting call issued by `fill_triangle`: either a
delegated `draw_line` or a `fill_region_between_lines` invocation. -/
inductive TriOp where
  | line (a b : Coordinate) (ch : Char) : TriOp
  | region (top_start top_end bottom_start bottom_end : Coordinate) (ch : Char) : TriOp
deriving DecidableEq, Repr

/-- Stable sort of the three corners by column (`sort_by` on `col` in the
source is a stable sort; on three elements this is the stable insertion
sort written out). -/
def sort3 (a b c : Coordinate) : Coordinate × Coordinate × Coordinate :=
  if b.col ≤ c.col then
    if a.col ≤ b.col then (a, b, c)
    else if a.col ≤ c.col then (b, a, c)
    else (b, c, a)
  else
    if a.col ≤ c.col then (a, c, b)
    else if a.col ≤ b.col then (c, a, b)
    else (c, b, a)

/-- The `mapped_fill_region` closure in `fill_triangle`: run the region
fill, wrapping any error with the part tag and the four corners. -/
def mapped_fill_region (part : Option ℤ) (ts te bs be : Coordinate) (fill_char : Char) :
    Except TriangleFillErr (List TriOp) :=
  match fill_region_between_lines ts te bs be fill_char with
  | .error e => .error ⟨part, ts, te, bs, be, e⟩
  | .ok _ => .ok [.region ts te bs be fill_char]

/-- Body of `fill_triangle` once the corners are sorted by column into
`(corner_lowcol, corner_midcol, corner_highcol)`. -/
def fillTriangleSorted (corner_lowcol corner_midcol corner_highcol : Coordinate)
    (fill_char : Char) : Except TriangleFillErr (List TriOp) :=
  if corner_lowcol.row = corner_midcol.row ∧ corner_lowcol.row = corner_highcol.row then
    .ok [.line corner_lowcol corner_highcol fill_char]
  else if corner_lowcol.col = corner_midcol.col ∧ corner_lowcol.col = corner_highcol.col then
    let lowest_row := min (min corner_lowcol.row corner_midcol.row) (min corner_lowcol.row corner_highcol.row)
    let highest_row := max (max corner_lowcol.row corner_midcol.row) (max corner_lowcol.row corner_highcol.row)
    .ok [.line ⟨lowest_row, corner_lowcol.col⟩ ⟨highest_row, corner_lowcol.col⟩ fill_char]
  else if corner_lowcol.col = corner_midcol.col then
    let p := if corner_lowcol.row ≤ corner_midcol.row then (corner_lowcol, corner_midcol)
      else (corner_midcol, corner_lowcol)
    mapped_fill_region none p.1 corner_highcol p.2 corner_highcol fill_char
  else if corner_midcol.col = corner_highcol.col then
    let p := if corner_midcol.row ≤ corner_highcol.row then (corner_midcol, corner_highcol)
      else (corner_highcol, corner_midcol)
    mapped_fill_region none corner_lowcol p.1 corner_lowcol p.2 fill_char
  else
    let longline_slope : ℚ :=
      ((corner_highcol.row - corner_lowcol.row : ℤ) : ℚ) / ((corner_highcol.col - corner_lowcol.col : ℤ) : ℚ)
    let midpoint_distance := corner_midcol.col - corner_lowcol.col
    let midpoint_rowchange := ftrunc (longline_slope * (midpoint_distance : ℚ))
    let second_midpoint : Coordinate := ⟨corner_lowcol.row + midpoint_rowchange, corner_midcol.col⟩
    if second_midpoint.row = corner_midcol.row then
      .ok [.line corner_lowcol corner_highcol fill_char]
    else
      let mp := if second_midpoint.row ≤ corner_midcol.row then (second_midpoint, corner_midcol)
        else (corner_midcol, second_midpoint)
      let upper_midpoint := mp.1
      let lower_midpoint := mp.2
      match mapped_fill_region (some 1) corner_lowcol upper_midpoint corner_lowcol lower_midpoint fill_char with
      | .error e => .error e
      | .ok ops1 =>
        match mapped_fill_region (some 2) upper_midpoint corner_highcol lower_midpoint corner_highcol fill_char with
        | .error e => .error e
        | .ok ops2 => .ok (ops1 ++ ops2)

/-- Embedding of `fill_triangle` from `draw_2d.rs`, returning the
primitive calls it issues (in order) or the wrapped region-fill error. -/
def fill_triangle (corner1 corner2 corner3 : Coordinate) (fill_char : Char) :
    Except TriangleFillErr (List TriOp) :=
  let s := sort3 corner1 corner2 corner3
  fillTriangleSorted s.1 s.2.1 s.2.2 fill_char

/-- Three points are collinear (cross product of the two edge vectors
vanishes). -/
def collinear3 (a b c : Coordinate) : Prop :=
  (b.row - a.row) * (c.col - a.col) = (c.row - a.row) * (b.col - a.col)

instance (a b c : Coordinate) : Decidable (collinear3 a b c) := by
  unfold collinear3; infer_instance

/-- Recognises a result consisting of exactly one delegated `draw_line`. -/
def singleLineOnly : List TriOp → Bool
  | [TriOp.line _ _ _] => true
  | _ => false

/-! ## World model (`src/world/world_entity.rs`, `pillar.rs`, `camera.rs`) -/

/-- The position data exposed by the `WorldEntity` trait (`x_pos`,
`y_pos`).  A `Pillar` is exactly this data, so pillars are represented
by `WorldEntity` values directly. -/
structure WorldEntity where
  x_pos : ℝ
  y_pos : ℝ

/-- `Pillar::at`. -/
def Pillar.at (x_pos y_pos : ℝ) : WorldEntity := ⟨x_pos, y_pos⟩

/-- The argument handed to `sqrt` by the trait's default `distance_to`:
the source computes `x_diff * x_diff - y_diff * y_diff` (note the
subtraction). -/
def distSqArg (self other : WorldEntity) : ℝ :=
  (other.x_pos - self.x_pos) * (other.x_pos - self.x_pos) -
    (other.y_pos - self.y_pos) * (other.y_pos - self.y_pos)

/-- `distance_to` produces an IEEE NaN exactly when the argument to
`sqrt` is negative.  Every comparison against a NaN is false, and
`NotNan::new` on it panics; the predicate is consulted wherever that
matters. -/
def distanceIsNaN (self other : WorldEntity) : Prop := distSqArg self other < 0

/-- Embedding of the default `WorldEntity::distance_to` (the real value
it yields when the `sqrt` argument is non-negative). -/
noncomputable def distance_to (self other : WorldEntity) : ℝ :=
  Real.sqrt (distSqArg self other)

/-- Modelled from the spec: the true Euclidean distance
`sqrt(dx^2 + dy^2)` that `distanceTo(entity)` is specified to return
("Euclidean distance between camera and entity positions. Must be the
true Euclidean formula sqrt(dx^2 + dy^2)"). -/
noncomputable def euclidean_distance (self other : WorldEntity) : ℝ :=
  Real.sqrt ((other.x_pos - self.x_pos) ^ 2 + (other.y_pos - self.y_pos) ^ 2)

/-- `TWO_PI` from `src/world/util.rs`. -/
noncomputable def TWO_PI : ℝ := 2 * Real.pi

/-- The `Camera` struct of `src/world/camera.rs`. -/
structure Camera where
  x_pos : ℝ
  y_pos : ℝ
  facing_direction : ℝ
  fov_angle : ℝ
  fill_screen_distance : ℝ
  horizon_distance : ℝ

/-- The `impl WorldEntity for Camera`: a camera's entity view is its
position. -/
def Camera.entity (c : Camera) : WorldEntity := ⟨c.x_pos, c.y_pos⟩

/-- `Camera::new`: position (0,0), facing 0, FOV `FRAC_PI_2`, fill
distance 2, horizon distance 15. -/
noncomputable def Camera.new : Camera := ⟨0, 0, 0, Real.pi / 2, 2, 15⟩

/-- `f64::atan2`: `y.atan2(x)` for finite arguments. -/
noncomputable def atan2 (y x : ℝ) : ℝ :=
  if 0 < x then Real.arctan (y / x)
  else if x < 0 ∧ 0 ≤ y then Real.arctan (y / x) + Real.pi
  else if x < 0 ∧ y < 0 then Real.arctan (y / x) - Real.pi
  else if x = 0 ∧ 0 < y then Real.pi / 2
  else if x = 0 ∧ y < 0 then -(Real.pi / 2)
  else 0

/-- `Camera::view_angle_from_center`. -/
noncomputable def Camera.view_angle_from_center (self : Camera) (other : WorldEntity) : ℝ :=
  let camera_vector_angle := atan2 (other.y_pos - self.y_pos) (other.x_pos - self.x_pos)
  self.facing_direction - camera_vector_angle

open Classical in
/-- `Camera::can_see`: the normalized view angle lies in the half-open
range `[-fov/2, fov/2)` and `distance_to < horizon_distance`.  The
distance comparison of the source is an IEEE `<`, which is false when
`distance_to` is NaN; that case is the explicit `¬ distanceIsNaN`
conjunct. -/
noncomputable def Camera.can_see (self : Camera) (other : WorldEntity) : Prop :=
  let view_angle_from_center := normalize_range (self.view_angle_from_center other) (-Real.pi) Real.pi
  let half_fov_angle := self.fov_angle / 2
  (-half_fov_angle ≤ view_angle_from_center ∧ view_angle_from_center < half_fov_angle) ∧
    ¬ distanceIsNaN self.entity other ∧ distance_to self.entity other < self.horizon_distance

/-- `Camera::update_cam`. -/
noncomputable def Camera.update_cam (self : Camera) (diff_forward diff_angle : ℝ) : Camera :=
  let new_angle := normalize_range (self.facing_direction + diff_angle) 0 TWO_PI
  let x_change := diff_forward * Real.cos new_angle
  let y_change := diff_forward * Real.sin new_angle
  { self with
      x_pos := self.x_pos + x_change
      y_pos := self.y_pos + y_change
      facing_direction := new_angle }

/-- A `Wall` links two pillars (`src/world/pillar.rs`). -/
structure Wall where
  pillar1 : WorldEntity
  pillar2 : WorldEntity

/-- `impl ViewableEntity for Wall`: visible iff either pillar is. -/
noncomputable def Wall.in_camera_view (self : Wall) (camera : Camera) : Prop :=
  camera.can_see self.pillar1 ∨ camera.can_see self.pillar2

/-- `Camera::can_see_viewable` delegates to the entity's own
implementation. -/
noncomputable def Camera.can_see_viewable (self : Camera) (other : Wall) : Prop :=
  other.in_camera_view self

/-! ## Scene composition (`src/render.rs`) -/

/-- The `Scene` struct: screen extents. -/
structure Scene where
  screen_rows : ℤ
  screen_cols : ℤ

/-- The `PillarCoords` struct. -/
structure PillarCoords where
  line_top : Coordinate
  line_bottom : Coordinate

/-- The `horizon_rise` subexpression of `calculate_pillar_coords`:
`half_screen_rows * (1 - (dist - fill_screen_distance) / (horizon_distance - fill_screen_distance))`. -/
noncomputable def horizon_rise (camera : Camera) (pillar_dist : ℝ) (half_screen_rows : ℤ) : ℝ :=
  (half_screen_rows : ℝ) *
    (1 - (pillar_dist - camera.fill_screen_distance) /
      (camera.horizon_distance - camera.fill_screen_distance))

open Classical in
/-- Embedding of `Scene::calculate_pillar_coords`.  Integer division of
`i32` truncates (`Int.tdiv`), and the `as i32` casts truncate toward
zero (`ftrunc`).  When `distance_to` is NaN, `horizon_rise` and both
row expressions are NaN, and Rust's NaN-to-`i32` cast yields 0. -/
noncomputable def calculate_pillar_coords (self : Scene) (camera : Camera) (pillar : WorldEntity) :
    PillarCoords :=
  let pillar_dist := distance_to camera.entity pillar
  let pillar_ang := normalize_range (camera.view_angle_from_center pillar) (-Real.pi) Real.pi
  let half_screen_rows := self.screen_rows.tdiv 2
  let half_screen_cols := self.screen_cols.tdiv 2
  let rise := horizon_rise camera pillar_dist half_screen_rows
  let pillar_top :=
    if distanceIsNaN camera.entity pillar then 0
    else ftrunc ((half_screen_rows : ℝ) - rise)
  let pillar_bottom :=
    if distanceIsNaN camera.entity pillar then 0
    else ftrunc ((half_screen_rows : ℝ) + rise)
  let pillar_column := ftrunc ((pillar_ang / camera.fov_angle) * (self.screen_cols : ℝ)) + half_screen_cols
  ⟨⟨pillar_top, pillar_column⟩, ⟨pillar_bottom, pillar_column⟩⟩

/-- Modelled from the spec: `render_frame` sorts by
`camera.distance_to(wall)`, which needs the `impl WorldEntity for Wall`
that is absent from the sources under `src/` (only `Pillar` and `Camera`
implement the trait there).  The wall's entity position is modelled as
the position of its first pillar; the ordering results below hold for
any choice. -/
def wallEntity (w : Wall) : WorldEntity := w.pillar1

/-- The sort key `camera.distance_to(wall)` used by `render_frame`. -/
noncomputable def wallSortKey (camera : Camera) (w : Wall) : ℝ :=
  distance_to camera.entity (wallEntity w)

/-- The comparison used to sort visible walls: ascending sort key. -/
noncomputable def wallLe (camera : Camera) (a b : Wall) : Prop :=
  wallSortKey camera a ≤ wallSortKey camera b

noncomputable instance (camera : Camera) : DecidableRel (wallLe camera) :=
  fun _ _ => Classical.propDecidable _

/-- A primitive call issued by `render_frame` for one wall: a triangle
fill or an outline line. -/
inductive PaintCall where
  | triangle (c1 c2 c3 : Coordinate) (ch : Char) : PaintCall
  | line (a b : Coordinate) (ch : Char) : PaintCall
deriving DecidableEq, Repr

/-- The loop body of `render_frame` for a single wall: project both
pillars, fill the face with two triangles when the pillar columns are
more than 2 apart, then outline the four edges. -/
noncomputable def wallOps (self : Scene) (camera : Camera) (wall : Wall) : List PaintCall :=
  let pillar1_screen_coords := calculate_pillar_coords self camera wall.pillar1
  let pillar2_screen_coords := calculate_pillar_coords self camera wall.pillar2
  let lr :=
    if pillar1_screen_coords.line_top.col ≤ pillar2_screen_coords.line_top.col then
      (pillar1_screen_coords, pillar2_screen_coords)
    else
      (pillar2_screen_coords, pillar1_screen_coords)
  let left_pillar_coords := lr.1
  let right_pillar_coords := lr.2
  let fills :=
    if 2 < right_pillar_coords.line_top.col - left_pillar_coords.line_top.col then
      let top_left_fillshift := left_pillar_coords.line_top.coord_shift 1 1
      let bottom_left_fillshift := left_pillar_coords.line_bottom.coord_shift (-1) 1
      let top_right_fillshift := right_pillar_coords.line_top.coord_shift 1 (-1)
      let bottom_right_fillshift := right_pillar_coords.line_bottom.coord_shift (-1) (-1)
      [PaintCall.triangle top_left_fillshift bottom_left_fillshift top_right_fillshift '.',
       PaintCall.triangle bottom_left_fillshift top_right_fillshift bottom_right_fillshift '.']
    else []
  fills ++
    [PaintCall.line pillar1_screen_coords.line_top pillar1_screen_coords.line_bottom '#',
     PaintCall.line pillar2_screen_coords.line_top pillar2_screen_coords.line_bottom '#',
     PaintCall.line pillar1_screen_coords.line_top pillar2_screen_coords.line_top '#',
     PaintCall.line pillar1_screen_coords.line_bottom pillar2_screen_coords.line_bottom '#']

/-- The fatal outcome of `render_frame`: `NotNan::new(...).expect(...)`
aborts the process when a visible wall's distance is NaN. -/
inductive RenderPanic where
  | nanDistance : RenderPanic
deriving DecidableEq, Repr

/-- `Vec::iter().filter(...)` over a proposition. -/
def pfilter {α : Type} (p : α → Prop) [DecidablePred p] : List α → List α
  | [] => []
  | x :: xs => if p x then x :: pfilter p xs else pfilter p xs

open Classical in
/-- Embedding of `Scene::render_frame`, returning the primitive calls
issued, tagged with the wall each call was issued for, or the panic
raised while computing the sort keys.  Mirrors the source: filter the
walls through `can_see_viewable`, compute each visible wall's
`NotNan::new(distance_to)` key (panicking on NaN), stable-sort
ascending, reverse, then emit each wall's paint calls (re-checking
`can_see_viewable` as the source does). -/
noncomputable def render_frame (self : Scene) (camera : Camera) (walls : List Wall) :
    Except RenderPanic (List (Wall × PaintCall)) :=
  let visible_walls := pfilter (fun w => camera.can_see_viewable w) walls
  if ∃ w ∈ visible_walls, distanceIsNaN camera.entity (wallEntity w) then
    .error .nanDistance
  else
    let sorted := List.insertionSort (wallLe camera) visible_walls
    .ok ((sorted.reverse).flatMap (fun w =>
      (if camera.can_see_viewable w then wallOps self camera w else []).map (fun op => (w, op))))

/-! ## Arithmetic lemmas about `ftrunc`, `fmod`, `normalize_range` -/

theorem ftrunc_intCast {α : Type} [LinearOrderedField α] [FloorRing α] (n : ℤ) :
    ftrunc (n : α) = n := by
  unfold ftrunc
  split <;> simp

theorem ftrunc_zero {α : Type} [LinearOrderedField α] [FloorRing α] :
    ftrunc (0 : α) = 0 := by
  simpa using ftrunc_intCast (α := α) 0

theorem fmod_zero_left {α : Type} [LinearOrderedField α] [FloorRing α] (w : α) :
    fmod (0 : α) w = 0 := by
  simp [fmod, ftrunc_zero, zero_div]

/-- `fmod a w = a` when `0 ≤ a < w`. -/
theorem fmod_eq_self_of_nonneg_lt {α : Type} [LinearOrderedField α] [FloorRing α]
    {a w : α} (h0 : 0 ≤ a) (hw : a < w) : fmod a w = a := by
  have hwpos : 0 < w := lt_of_le_of_lt h0 hw
  have hq0 : 0 ≤ a / w := div_nonneg h0 hwpos.le
  have hq1 : a / w < 1 := (div_lt_one hwpos).mpr hw
  have : ⌊a / w⌋ = 0 := by
    rw [Int.floor_eq_iff] <;> simp_all
  simp [fmod, ftrunc, hq0, this]

/-- `fmod w w = 0` for `w ≠ 0`. -/
theorem fmod_self {α : Type} [LinearOrderedField α] [FloorRing α]
    {w : α} (hw : w ≠ 0) : fmod w w = 0 := by
  have : w / w = 1 := div_self hw
  by_cases h : (0 : α) ≤ w / w <;> simp [fmod, ftrunc, this] at h ⊢ <;> simp_all

/-- Bounds of `fmod` for positive modulus: the result has the sign of the
dividend with magnitude below `w`. -/
theorem fmod_bounds {α : Type} [LinearOrderedField α] [FloorRing α]
    {a w : α} (hw : 0 < w) :
    (0 ≤ a → 0 ≤ fmod a w ∧ fmod a w < w) ∧
    (a < 0 → -w < fmod a w ∧ fmod a w ≤ 0) := by
  have ha' : (a / w) * w = a := div_mul_cancel₀ a hw.ne'
  constructor
  · intro ha
    have hq0 : 0 ≤ a / w := div_nonneg ha hw.le
    have h1 : (⌊a / w⌋ : α) ≤ a / w := Int.floor_le _
    have h2 : a / w < ⌊a / w⌋ + 1 := Int.lt_floor_add_one _
    have h1' : (⌊a / w⌋ : α) * w ≤ a := by nlinarith
    have h2' : a < ((⌊a / w⌋ : α) + 1) * w := by nlinarith
    constructor <;> · simp only [fmod, ftrunc, if_pos hq0]; nlinarith
  · intro ha
    have hqneg : ¬ (0 : α) ≤ a / w := by
      intro h
      nlinarith
    have h1 : a / w ≤ (⌈a / w⌉ : α) := Int.le_ceil _
    have h2 : (⌈a / w⌉ : α) - 1 < a / w := by
      have := Int.ceil_lt_add_one (a / w)
      linarith
    have h1' : a ≤ (⌈a / w⌉ : α) * w := by nlinarith
    have h2' : ((⌈a / w⌉ : α) - 1) * w < a := by nlinarith
    constructor <;> · simp only [fmod, ftrunc, if_neg hqneg]; nlinarith

/-- `normalize_range` is the identity on the half-open-from-the-left
interval `(s, e]` (note: NOT on `[s, e)`; `s` itself is mapped to `e`). -/
theorem normalize_range_id {α : Type} [LinearOrderedField α] [FloorRing α]
    {v s e : α} (h1 : s < v) (h2 : v ≤ e) : normalize_range v s e = v := by
  rcases eq_or_lt_of_le h2 with heq | hlt
  · subst heq
    have hw : (0 : α) < v - s := by linarith
    have : fmod (v - s) (v - s) = 0 := fmod_self hw.ne'
    simp [normalize_range, this]
  · have h0 : (0 : α) ≤ v - s := by linarith
    have hlt2 : v - s < e - s := by linarith
    have hm : fmod (v - s) (e - s) = v - s := fmod_eq_self_of_nonneg_lt h0 hlt2
    have hpos : 0 < v - s := by linarith
    simp [normalize_range, hm, hpos]

/-- `normalize_range` maps the range start to the range END (because the
source guards with `normalized_value > 0.0`, a zero remainder gets the
full width added). -/
theorem normalize_range_start {α : Type} [LinearOrderedField α] [FloorRing α]
    (s e : α) : normalize_range s s e = e := by
  simp [normalize_range, fmod_zero_left]

/-- For `s < e` the result of `normalize_range` always lies in `(s, e]`. -/
theorem normalize_range_mem {α : Type} [LinearOrderedField α] [FloorRing α]
    {s e : α} (v : α) (hse : s < e) :
    s < normalize_range v s e ∧ normalize_range v s e ≤ e := by
  have hw : (0 : α) < e - s := by linarith
  have hb := fmod_bounds (a := v - s) hw
  by_cases ha : 0 ≤ v - s
  · obtain ⟨hm0, hmw⟩ := hb.1 ha
    by_cases hpos : 0 < fmod (v - s) (e - s)
    · constructor <;> simp [normalize_range, hpos] <;> linarith
    · have : fmod (v - s) (e - s) = 0 := le_antisymm (not_lt.mp hpos) hm0
      constructor <;> simp [normalize_range, hpos, this] <;> linarith
  · obtain ⟨hm0, hmw⟩ := hb.2 (not_le.mp ha)
    have hpos : ¬ 0 < fmod (v - s) (e - s) := not_lt.mpr hmw
    constructor <;> simp [normalize_range, hpos] <;> linarith


/-! ## Lemmas about `draw_line` -/

theorem ftrunc_ne_zero {α : Type} [LinearOrderedField α] [FloorRing α]
    {x : α} (h : 1 ≤ |x|) : ftrunc x ≠ 0 := by
  rcases abs_cases x with ⟨hx, _⟩ | ⟨hx, hneg⟩
  · have h1 : (1 : α) ≤ x := by linarith
    have : (1 : ℤ) ≤ ⌊x⌋ := by
      rw [Int.le_floor]; exact_mod_cast h1
    simp only [ftrunc, if_pos (by linarith : (0:α) ≤ x)]
    omega
  · have h1 : x ≤ -1 := by linarith
    have : ⌈x⌉ ≤ -1 := by
      rw [Int.ceil_le]; exact_mod_cast h1
    have hneg2 : ¬ (0 : α) ≤ x := by
      intro hc; linarith
    simp only [ftrunc, if_neg hneg2]
    omega

/-- When its counter is non-zero, the catch-up loop's first painted cell
is a `'#'` at the starting position. -/
theorem ddaCatchAux_head {fuel : ℕ} {k row_move row col : ℤ}
    (hk : k ≠ 0) (hf : fuel ≠ 0) :
    (⟨row, col, '#'⟩ : Cell) ∈ (ddaCatchAux fuel k row_move row col).1 := by
  obtain ⟨m, rfl⟩ := Nat.exists_eq_succ_of_ne_zero hf
  simp [ddaCatchAux, hk]

/-- The general-case loop of `draw_line` paints a `'#'` in its first
column whenever the slope magnitude is at least one. -/
theorem ddaLoop_steep_hash (fill_char : Char) (slope : ℚ) (row_move : ℤ)
    (n : ℕ) (col row : ℤ) (h : 1 ≤ |slope|) :
    (⟨row, col, '#'⟩ : Cell) ∈ ddaLoop fill_char slope row_move (n + 1) col 0 row := by
  have h0 : (0 : ℚ) + slope = slope := zero_add slope
  have hk : ftrunc slope ≠ 0 := ftrunc_ne_zero h
  have hfuel : (ftrunc slope).natAbs ≠ 0 := Int.natAbs_ne_zero.mpr hk
  simp only [ddaLoop, h0, if_pos h]
  right
  exact List.mem_append_left _ (ddaCatchAux_head hk hfuel)

/-! ## C1, C6, C7, C10 -/

/-- C1 (code_bug evidence): the default `distance_to` computes
`sqrt(dx*dx - dy*dy)`, not the Euclidean `sqrt(dx^2 + dy^2)`.  For
entities at (0,0) and (0,1) the `sqrt` argument is -1, i.e. the result
is NaN while the true distance is 1; for (0,0) and (1,1) the code yields
0 while the true distance is `sqrt 2 ≠ 0`. -/
theorem distance_to_subtractive_defect :
    distanceIsNaN (Pillar.at 0 0) (Pillar.at 0 1) ∧
    euclidean_distance (Pillar.at 0 0) (Pillar.at 0 1) = 1 ∧
    distance_to (Pillar.at 0 0) (Pillar.at 1 1) = 0 ∧
    euclidean_distance (Pillar.at 0 0) (Pillar.at 1 1) = Real.sqrt 2 ∧
    Real.sqrt 2 ≠ 0 := by
  refine ⟨?_, ?_, ?_, ?_, ?_⟩
  · simp [distanceIsNaN, distSqArg, Pillar.at]
  · simp [euclidean_distance, Pillar.at]
  · simp [distance_to, distSqArg, Pillar.at]
  · norm_num [euclidean_distance, Pillar.at]
  · have : (0 : ℝ) < Real.sqrt 2 := Real.sqrt_pos.mpr (by norm_num)
    exact this.ne'

/-- C6 (counterexample): `normalize_range` is NOT the identity on the
half-open range `[rangeStart, rangeEnd)` — the start itself is sent to
the end — and `rangeEnd` does not wrap to `rangeStart`, it stays at
`rangeEnd`.  Witnessed on the range `1..21` used by the source's own
tests. -/
theorem normalize_range_boundary_counterexample :
    normalize_range (1 : ℚ) 1 21 = 21 ∧ normalize_range (21 : ℚ) 1 21 = 21 ∧
    (21 : ℚ) ≠ 1 := by
  refine ⟨?_, ?_, by norm_num⟩ <;> norm_num [normalize_range, fmod, ftrunc]

/-- C6 (amended): `normalize_range` is the identity exactly on the
half-open-from-the-left interval `(rangeStart, rangeEnd]`; the start is
mapped to the end, the end stays put, and for `rangeStart < rangeEnd`
every result lies in `(rangeStart, rangeEnd]`. -/
theorem normalize_range_idempotence (v s e : ℚ) (hse : s < e) :
    (s < v → v ≤ e → normalize_range v s e = v) ∧
    normalize_range s s e = e ∧
    normalize_range e s e = e ∧
    s < normalize_range v s e ∧ normalize_range v s e ≤ e := by
  refine ⟨fun h1 h2 => normalize_range_id h1 h2, normalize_range_start s e,
    normalize_range_id hse le_rfl, (normalize_range_mem v hse).1, (normalize_range_mem v hse).2⟩

theorem normalize_range_idempotence_witness :
    ((1 : ℚ) < 5 → (5 : ℚ) ≤ 21 → normalize_range (5 : ℚ) 1 21 = 5) ∧
    normalize_range (1 : ℚ) 1 21 = 21 ∧
    normalize_range (21 : ℚ) 1 21 = 21 ∧
    (1 : ℚ) < normalize_range (5 : ℚ) 1 21 ∧ normalize_range (5 : ℚ) 1 21 ≤ 21 :=
  normalize_range_idempotence 5 1 21 (by norm_num)

/-- C7 (counterexample): the vertical branch of `draw_line` paints the
lower endpoint's row.  From (0,0) to (5,0) (rows 0 and 5 at column 0) it
paints 5 cells — rows 0,1,2,3,4 — not the 4 cells of rows 1..4 the claim
describes, and row 0 (an endpoint row) is among them. -/
theorem draw_line_vertical_counterexample :
    (⟨0, 0, '#'⟩ : Cell) ∈ draw_line ⟨0, 0⟩ ⟨5, 0⟩ '#' ∧
    (draw_line ⟨0, 0⟩ ⟨5, 0⟩ '#').length = 5 := by
  constructor <;> decide

/-- C7 (amended): for endpoints sharing a column, `draw_line` paints
exactly the cells of that column whose row lies in `[min row, max row)`
— inclusive of the lower endpoint's row, exclusive of the higher's. -/
theorem mem_range_map_cell (n : ℕ) (base col : ℤ) (ch : Char) (r c : ℤ) (k : Char) :
    ((⟨r, c, k⟩ : Cell) ∈ (List.range n).map (fun (i : ℕ) => (⟨base + (i : ℤ), col, ch⟩ : Cell))) ↔
      (c = col ∧ k = ch ∧ base ≤ r ∧ r < base + (n : ℤ)) := by
  constructor
  · intro hmem
    obtain ⟨i, hi, hcell⟩ := List.mem_map.mp hmem
    rw [List.mem_range] at hi
    cases hcell
    exact ⟨rfl, rfl, by omega, by omega⟩
  · rintro ⟨hc, hk, h1, h2⟩
    refine List.mem_map.mpr ⟨(r - base).toNat, List.mem_range.mpr (by omega), ?_⟩
    have hb : base + (((r - base).toNat : ℕ) : ℤ) = r := by omega
    rw [hb, hc, hk]

theorem draw_line_vertical_cells (a b : Coordinate) (ch : Char) (r c : ℤ) (k : Char)
    (hcol : a.col = b.col) :
    (⟨r, c, k⟩ : Cell) ∈ draw_line a b ch ↔
      c = a.col ∧ k = ch ∧ min a.row b.row ≤ r ∧ r < max a.row b.row := by
  have hnlt : ¬ a.col < b.col := by omega
  have hz : a.col - b.col = 0 := by omega
  have hml : min b.row a.row ≤ max b.row a.row := min_le_max
  have hminc : min b.row a.row = min a.row b.row := min_comm _ _
  have hmaxc : max b.row a.row = max a.row b.row := max_comm _ _
  rw [show draw_line a b ch =
      (List.range (max b.row a.row - min b.row a.row).toNat).map
        (fun (i : ℕ) => (⟨min b.row a.row + (i : ℤ), b.col, ch⟩ : Cell)) from by
    simp only [draw_line, if_neg hnlt, hz, if_pos]]
  rw [mem_range_map_cell]
  constructor
  · rintro ⟨hc, hk, h1, h2⟩
    refine ⟨by omega, hk, by omega, by omega⟩
  · rintro ⟨hc, hk, h1, h2⟩
    refine ⟨by omega, hk, by omega, by omega⟩

/-- C10: in `draw_line`'s general (non-vertical) case with `|slope| ≥ 1`
the catch-up cells are painted with the hard-coded `'#'`; so for any
fill character other than `'#'` some painted cell does not hold the fill
character. -/
theorem draw_line_steep_paints_hash (f t : Coordinate) (ch : Char)
    (hcol : f.col ≠ t.col)
    (hslope : |t.col - f.col| ≤ |t.row - f.row|)
    (hch : ch ≠ '#') :
    ∃ r c, (⟨r, c, '#'⟩ : Cell) ∈ draw_line f t ch := by
  by_cases hlt : f.col < t.col
  · have hcc : ¬ (t.col - f.col = 0) := by omega
    have hne : t.col - f.col ≠ 0 := by omega
    have h0 : (0 : ℚ) < |((t.col - f.col : ℤ) : ℚ)| := by
      rw [← Int.cast_abs]
      exact_mod_cast abs_pos.mpr hne
    have habs : 1 ≤ |((t.row - f.row : ℤ) : ℚ) / ((t.col - f.col : ℤ) : ℚ)| := by
      rw [abs_div, le_div_iff h0, one_mul, ← Int.cast_abs, ← Int.cast_abs]
      exact_mod_cast hslope
    refine ⟨f.row, f.col, ?_⟩
    simp only [draw_line, if_pos hlt, if_neg hcc]
    exact ddaLoop_steep_hash ch _ _ _ _ _ habs
  · have hlt2 : t.col < f.col := by omega
    have hcc : ¬ (f.col - t.col = 0) := by omega
    have hne : f.col - t.col ≠ 0 := by omega
    have h0 : (0 : ℚ) < |((f.col - t.col : ℤ) : ℚ)| := by
      rw [← Int.cast_abs]
      exact_mod_cast abs_pos.mpr hne
    have habs : 1 ≤ |((f.row - t.row : ℤ) : ℚ) / ((f.col - t.col : ℤ) : ℚ)| := by
      rw [abs_div, le_div_iff h0, one_mul, ← Int.cast_abs, ← Int.cast_abs]
      have h2 : |f.col - t.col| ≤ |f.row - t.row| := by
        rw [abs_sub_comm, abs_sub_comm f.row]
        exact hslope
      exact_mod_cast h2
    refine ⟨t.row, t.col, ?_⟩
    simp only [draw_line, if_neg hlt, if_neg hcc]
    exact ddaLoop_steep_hash ch _ _ _ _ _ habs

/-- C10 witness: the segment (0,0)–(5,5) has slope 1 and fill character
`'.'`; some painted cell holds `'#'` instead. -/
theorem draw_line_steep_paints_hash_witness :
    ∃ r c, (⟨r, c, '#'⟩ : Cell) ∈ draw_line ⟨0, 0⟩ ⟨5, 5⟩ '.' :=
  draw_line_steep_paints_hash ⟨0, 0⟩ ⟨5, 5⟩ '.' (by decide) (by decide) (by decide)

/-- C7 witness for the amended vertical-line characterisation, applied
to the segment (0,0)–(5,0): row 3 at column 0 is painted. -/
theorem draw_line_vertical_cells_witness :
    (⟨3, 0, '#'⟩ : Cell) ∈ draw_line ⟨0, 0⟩ ⟨5, 0⟩ '#' :=
  (draw_line_vertical_cells ⟨0, 0⟩ ⟨5, 0⟩ '#' 3 0 '#' rfl).mpr (by decide)

/-! ## C5 (`update_cam`) and C2 (`can_see`) -/

/-- C5 (counterexample): `update_cam(0, 0)` is NOT the identity on every
camera.  On `Camera::new` (facing 0) the re-normalization into
`0..TWO_PI` maps the facing angle 0 to `TWO_PI`. -/
theorem update_cam_zero_not_identity :
    (Camera.new.update_cam 0 0).facing_direction ≠ Camera.new.facing_direction := by
  have h : (Camera.new.update_cam 0 0).facing_direction = TWO_PI := by
    simp only [Camera.update_cam, Camera.new, add_zero]
    exact normalize_range_start 0 TWO_PI
  rw [h]
  simp only [Camera.new, TWO_PI]
  have hpi := Real.pi_pos
  intro hc
  linarith

/-- C5 (amended): `update_cam(0, 0)` always preserves the position
exactly, and preserves the facing angle exactly whenever it lies in
`(0, TWO_PI]`; a facing angle of 0 is mapped to `TWO_PI` instead (the
same direction, but a different stored value). -/
theorem update_cam_zero_zero (c : Camera) :
    (c.update_cam 0 0).x_pos = c.x_pos ∧ (c.update_cam 0 0).y_pos = c.y_pos ∧
    (0 < c.facing_direction → c.facing_direction ≤ TWO_PI →
      (c.update_cam 0 0).facing_direction = c.facing_direction) := by
  refine ⟨by simp [Camera.update_cam], by simp [Camera.update_cam], ?_⟩
  intro h1 h2
  simp only [Camera.update_cam, add_zero]
  exact normalize_range_id h1 h2

theorem update_cam_zero_zero_witness :
    ((⟨1, 2, Real.pi, Real.pi / 2, 2, 15⟩ : Camera).update_cam 0 0).x_pos = 1 ∧
    ((⟨1, 2, Real.pi, Real.pi / 2, 2, 15⟩ : Camera).update_cam 0 0).y_pos = 2 ∧
    ((⟨1, 2, Real.pi, Real.pi / 2, 2, 15⟩ : Camera).update_cam 0 0).facing_direction = Real.pi := by
  obtain ⟨h1, h2, h3⟩ := update_cam_zero_zero ⟨1, 2, Real.pi, Real.pi / 2, 2, 15⟩
  refine ⟨h1, h2, h3 Real.pi_pos ?_⟩
  show Real.pi ≤ TWO_PI
  rw [TWO_PI]
  linarith [Real.pi_pos]

/-- C2 (code_bug evidence): an entity exactly on the facing ray at
distance 1 (camera at the origin facing `π/2`, entity at (0,1)), with
`fovAngle = π/2 > 0` and `horizonDistance = 15 > 1`, is nevertheless NOT
seen: the defective `distance_to` computes `sqrt(0 - 1)`, i.e. NaN, and
the NaN comparison with the horizon distance is false. -/
theorem can_see_on_ray_defeated_by_nan :
    Pillar.at 0 1 =
      Pillar.at ((0 : ℝ) + 1 * Real.cos (Real.pi / 2)) ((0 : ℝ) + 1 * Real.sin (Real.pi / 2)) ∧
    (1 : ℝ) < 15 ∧ (0 : ℝ) < Real.pi / 2 ∧
    ¬ (⟨0, 0, Real.pi / 2, Real.pi / 2, 2, 15⟩ : Camera).can_see (Pillar.at 0 1) := by
  refine ⟨?_, by norm_num, by linarith [Real.pi_pos], ?_⟩
  · simp [Pillar.at, Real.cos_pi_div_two, Real.sin_pi_div_two]
  · intro h
    simp only [Camera.can_see] at h
    obtain ⟨-, hnan, -⟩ := h
    apply hnan
    norm_num [distanceIsNaN, distSqArg, Camera.entity, Pillar.at]

/-! ## C8: `fill_triangle` on collinear corners -/

/-- `sort3` orders the three corners by column. -/
theorem sort3_sorted (a b c : Coordinate) :
    (sort3 a b c).1.col ≤ (sort3 a b c).2.1.col ∧ (sort3 a b c).2.1.col ≤ (sort3 a b c).2.2.col := by
  unfold sort3
  split_ifs <;> constructor <;> simp <;> omega

/-- `sort3` returns one of the six permutations of its arguments. -/
theorem sort3_cases (a b c : Coordinate) :
    sort3 a b c = (a, b, c) ∨ sort3 a b c = (b, a, c) ∨ sort3 a b c = (b, c, a) ∨
    sort3 a b c = (a, c, b) ∨ sort3 a b c = (c, a, b) ∨ sort3 a b c = (c, b, a) := by
  unfold sort3
  split_ifs <;> tauto

theorem collinear3_swap12 {a b c : Coordinate} (h : collinear3 a b c) : collinear3 b a c := by
  unfold collinear3 at h ⊢
  linear_combination -h

theorem collinear3_swap23 {a b c : Coordinate} (h : collinear3 a b c) : collinear3 a c b :=
  h.symm

/-- `fill_region_between_lines` succeeds whenever the two edges span the
same columns with the top edge at or above the bottom edge. -/
theorem fill_region_ok (ts te bs be : Coordinate) (ch : Char)
    (h1 : ts.col ≤ te.col) (h2 : bs.col ≤ be.col) (h3 : ts.col = bs.col) (h4 : te.col = be.col)
    (h5 : ts.row ≤ bs.row) (h6 : te.row ≤ be.row) :
    ∃ cells, fill_region_between_lines ts te bs be ch = .ok cells := by
  have hn1 : ¬ te.col < ts.col := by omega
  have hn2 : ¬ be.col < bs.col := by omega
  simp only [fill_region_between_lines, if_neg hn1, if_neg hn2]
  have hc1 : ¬ (ts.col ≠ bs.col ∨ te.col ≠ be.col) := by tauto
  have hc2 : ¬ (bs.row < ts.row ∨ be.row < te.row) := by omega
  rw [if_neg hc1, if_neg hc2]
  exact ⟨_, rfl⟩

theorem mapped_fill_region_ok (part : Option ℤ) (ts te bs be : Coordinate) (ch : Char)
    (h1 : ts.col ≤ te.col) (h2 : bs.col ≤ be.col) (h3 : ts.col = bs.col) (h4 : te.col = be.col)
    (h5 : ts.row ≤ bs.row) (h6 : te.row ≤ be.row) :
    mapped_fill_region part ts te bs be ch = .ok [.region ts te bs be ch] := by
  obtain ⟨cells, hc⟩ := fill_region_ok ts te bs be ch h1 h2 h3 h4 h5 h6
  unfold mapped_fill_region
  rw [hc]

/-- The body of `fill_triangle` never returns an error: every region
fill it assembles satisfies the region filler's contract. -/
theorem fillTriangleSorted_ok (lo mi hi : Coordinate) (ch : Char)
    (hlm : lo.col ≤ mi.col) (hmh : mi.col ≤ hi.col) :
    ∃ ops, fillTriangleSorted lo mi hi ch = .ok ops := by
  unfold fillTriangleSorted
  by_cases h1 : lo.row = mi.row ∧ lo.row = hi.row
  · rw [if_pos h1]; exact ⟨_, rfl⟩
  · rw [if_neg h1]
    by_cases h2 : lo.col = mi.col ∧ lo.col = hi.col
    · rw [if_pos h2]; exact ⟨_, rfl⟩
    · rw [if_neg h2]
      by_cases h3 : lo.col = mi.col
      · rw [if_pos h3]
        have hlh : lo.col < hi.col := by
          rcases eq_or_lt_of_le (hlm.trans hmh) with he | hh
          · exact absurd ⟨h3, he⟩ h2
          · exact hh
        by_cases hr : lo.row ≤ mi.row
        · rw [if_pos hr]
          rw [mapped_fill_region_ok none lo hi mi hi ch (by omega) (by omega) h3 rfl hr le_rfl]
          exact ⟨_, rfl⟩
        · rw [if_neg hr]
          rw [mapped_fill_region_ok none mi hi lo hi ch (by omega) (by omega) h3.symm rfl (by omega) le_rfl]
          exact ⟨_, rfl⟩
      · rw [if_neg h3]
        by_cases h4 : mi.col = hi.col
        · rw [if_pos h4]
          by_cases hr : mi.row ≤ hi.row
          · rw [if_pos hr]
            rw [mapped_fill_region_ok none lo mi lo hi ch (by omega) (by omega) rfl h4 le_rfl hr]
            exact ⟨_, rfl⟩
          · rw [if_neg hr]
            rw [mapped_fill_region_ok none lo hi lo mi ch (by omega) (by omega) rfl h4.symm le_rfl (by omega)]
            exact ⟨_, rfl⟩
        · rw [if_neg h4]
          set q : ℤ := ftrunc (((hi.row - lo.row : ℤ) : ℚ) / ((hi.col - lo.col : ℤ) : ℚ) * ((mi.col - lo.col : ℤ) : ℚ)) with hq
          by_cases h5 : lo.row + q = mi.row
          · rw [if_pos h5]
            exact ⟨_, rfl⟩
          · rw [if_neg h5]
            by_cases h6 : lo.row + q ≤ mi.row
            · rw [if_pos h6]
              dsimp only
              rw [mapped_fill_region_ok (some 1) lo ⟨lo.row + q, mi.col⟩ lo mi ch
                  (show lo.col ≤ mi.col from hlm) hlm rfl rfl le_rfl (show lo.row + q ≤ mi.row from h6),
                mapped_fill_region_ok (some 2) ⟨lo.row + q, mi.col⟩ hi mi hi ch
                  (show mi.col ≤ hi.col from hmh) hmh rfl rfl (show lo.row + q ≤ mi.row from h6) le_rfl]
              exact ⟨_, rfl⟩
            · rw [if_neg h6]
              dsimp only
              rw [mapped_fill_region_ok (some 1) lo mi lo ⟨lo.row + q, mi.col⟩ ch
                  hlm (show lo.col ≤ mi.col from hlm) rfl rfl le_rfl (show mi.row ≤ lo.row + q from by omega),
                mapped_fill_region_ok (some 2) mi hi ⟨lo.row + q, mi.col⟩ hi ch
                  hmh (show mi.col ≤ hi.col from hmh) rfl rfl (show mi.row ≤ lo.row + q from by omega) le_rfl]
              exact ⟨_, rfl⟩

/-- On three pairwise distinct collinear corners (sorted by column) the
triangle fill degenerates to a single delegated `draw_line`. -/
theorem fillTriangleSorted_collinear_line (lo mi hi : Coordinate) (ch : Char)
    (hlm : lo.col ≤ mi.col) (hmh : mi.col ≤ hi.col)
    (hcol : collinear3 lo mi hi)
    (d1 : lo ≠ mi) (d2 : lo ≠ hi) (d3 : mi ≠ hi) :
    ∃ p q, fillTriangleSorted lo mi hi ch = .ok [.line p q ch] := by
  unfold fillTriangleSorted
  by_cases h1 : lo.row = mi.row ∧ lo.row = hi.row
  · rw [if_pos h1]
    exact ⟨lo, hi, rfl⟩
  · rw [if_neg h1]
    by_cases h2 : lo.col = mi.col ∧ lo.col = hi.col
    · rw [if_pos h2]
      exact ⟨_, _, rfl⟩
    · rw [if_neg h2]
      have hrc : ∀ u v : Coordinate, u.row = v.row → u.col = v.col → u = v := by
        intro u v hr hc
        cases u
        cases v
        simp_all
      have hlm2 : lo.col < mi.col := by
        rcases eq_or_lt_of_le hlm with he | hh
        · exfalso
          have hrow : lo.row ≠ mi.row := fun hr => d1 (hrc lo mi hr he)
          have hz : (mi.row - lo.row) * (hi.col - lo.col) = 0 := by
            unfold collinear3 at hcol
            rw [hcol, ← he]
            ring
          rcases mul_eq_zero.mp hz with hz1 | hz1
          · exact hrow (by omega)
          · exact h2 ⟨he, by omega⟩
        · exact hh
      have hmh2 : mi.col < hi.col := by
        rcases eq_or_lt_of_le hmh with he | hh
        · exfalso
          have hrow : mi.row ≠ hi.row := fun hr => d3 (hrc mi hi hr he)
          have hz : (mi.row - hi.row) * (mi.col - lo.col) = 0 := by
            unfold collinear3 at hcol
            rw [← he] at hcol
            linear_combination hcol
          rcases mul_eq_zero.mp hz with hz1 | hz1
          · exact hrow (by omega)
          · omega
        · exact hh
      rw [if_neg (by omega : ¬ lo.col = mi.col), if_neg (by omega : ¬ mi.col = hi.col)]
      have hne : ((hi.col - lo.col : ℤ) : ℚ) ≠ 0 := by
        have : hi.col - lo.col ≠ 0 := by omega
        exact_mod_cast this
      have hslope : ((hi.row - lo.row : ℤ) : ℚ) / ((hi.col - lo.col : ℤ) : ℚ) * ((mi.col - lo.col : ℤ) : ℚ)
          = ((mi.row - lo.row : ℤ) : ℚ) := by
        rw [div_mul_eq_mul_div, div_eq_iff hne]
        unfold collinear3 at hcol
        exact_mod_cast hcol.symm
      have hq : ftrunc (((hi.row - lo.row : ℤ) : ℚ) / ((hi.col - lo.col : ℤ) : ℚ) * ((mi.col - lo.col : ℤ) : ℚ))
          = mi.row - lo.row := by
        rw [hslope, ftrunc_intCast]
      rw [if_pos (by rw [hq]; omega : lo.row + ftrunc (((hi.row - lo.row : ℤ) : ℚ) / ((hi.col - lo.col : ℤ) : ℚ) * ((mi.col - lo.col : ℤ) : ℚ)) = mi.row)]
      exact ⟨lo, hi, rfl⟩

/-- C8 (amended): `fill_triangle` never returns an error (on any input,
collinear or not), and on three PAIRWISE DISTINCT collinear corners its
painting is a single delegated `draw_line` between two of the corners.
(With a duplicated corner the result is still `Ok` but is a degenerate
region fill, not a `draw_line` — see the counterexample.) -/
theorem fill_triangle_collinear_behavior (c1 c2 c3 : Coordinate) (ch : Char) :
    (∃ ops, fill_triangle c1 c2 c3 ch = .ok ops) ∧
    (collinear3 c1 c2 c3 → c1 ≠ c2 → c1 ≠ c3 → c2 ≠ c3 →
      ∃ p q, fill_triangle c1 c2 c3 ch = .ok [.line p q ch]) := by
  obtain ⟨hs1, hs2⟩ := sort3_sorted c1 c2 c3
  constructor
  · unfold fill_triangle
    exact fillTriangleSorted_ok _ _ _ ch hs1 hs2
  · intro hcol d12 d13 d23
    unfold fill_triangle
    rcases sort3_cases c1 c2 c3 with h | h | h | h | h | h <;> rw [h] at hs1 hs2 ⊢
    · exact fillTriangleSorted_collinear_line _ _ _ ch hs1 hs2 hcol d12 d13 d23
    · exact fillTriangleSorted_collinear_line _ _ _ ch hs1 hs2
        (collinear3_swap12 hcol) (Ne.symm d12) d23 d13
    · exact fillTriangleSorted_collinear_line _ _ _ ch hs1 hs2
        (collinear3_swap23 (collinear3_swap12 hcol)) d23 (Ne.symm d12) (Ne.symm d13)
    · exact fillTriangleSorted_collinear_line _ _ _ ch hs1 hs2
        (collinear3_swap23 hcol) d13 d12 (Ne.symm d23)
    · exact fillTriangleSorted_collinear_line _ _ _ ch hs1 hs2
        (collinear3_swap12 (collinear3_swap23 hcol)) (Ne.symm d13) (Ne.symm d23) d12
    · exact fillTriangleSorted_collinear_line _ _ _ ch hs1 hs2
        (collinear3_swap12 (collinear3_swap23 (collinear3_swap12 hcol)))
        (Ne.symm d23) (Ne.symm d13) (Ne.symm d12)

/-- C8 (counterexample): the corners (0,0), (0,0), (3,5) are collinear
(two coincide), yet `fill_triangle` paints them with a
`fill_region_between_lines` call, not a single `draw_line`. -/
theorem fill_triangle_duplicate_corner_counterexample :
    collinear3 ⟨0, 0⟩ ⟨0, 0⟩ ⟨3, 5⟩ ∧
    fill_triangle ⟨0, 0⟩ ⟨0, 0⟩ ⟨3, 5⟩ '.' =
      .ok [TriOp.region ⟨0, 0⟩ ⟨3, 5⟩ ⟨0, 0⟩ ⟨3, 5⟩ '.'] ∧
    singleLineOnly [TriOp.region ⟨0, 0⟩ ⟨3, 5⟩ ⟨0, 0⟩ ⟨3, 5⟩ '.'] = false := by
  refine ⟨by decide, by rfl, by decide⟩

/-- C8 witness: distinct collinear corners (0,0), (1,1), (2,2). -/
theorem fill_triangle_collinear_behavior_witness :
    (∃ ops, fill_triangle ⟨0, 0⟩ ⟨1, 1⟩ ⟨2, 2⟩ '.' = .ok ops) ∧
    (∃ p q, fill_triangle ⟨0, 0⟩ ⟨1, 1⟩ ⟨2, 2⟩ '.' = .ok [.line p q '.']) :=
  ⟨(fill_triangle_collinear_behavior ⟨0, 0⟩ ⟨1, 1⟩ ⟨2, 2⟩ '.').1,
   (fill_triangle_collinear_behavior ⟨0, 0⟩ ⟨1, 1⟩ ⟨2, 2⟩ '.').2
     (by decide) (by decide) (by decide) (by decide)⟩


/-! ## C4: perspective projection -/

/-- `atan2(0, x) = 0` for positive `x`. -/
theorem atan2_zero_of_pos {x : ℝ} (hx : 0 < x) : atan2 0 x = 0 := by
  simp [atan2, hx, Real.arctan_zero]

/-- A pillar straight ahead of `Camera::new` has view angle 0. -/
theorem view_angle_new_on_axis (d : ℝ) (hd : 0 < d) :
    Camera.new.view_angle_from_center (Pillar.at d 0) = 0 := by
  simp only [Camera.view_angle_from_center, Camera.new, Pillar.at, sub_zero, sub_self]
  rw [atan2_zero_of_pos hd]
  ring

/-- Normalizing 0 into `-PI..PI` gives 0. -/
theorem normalize_zero_pi : normalize_range (0 : ℝ) (-Real.pi) Real.pi = 0 :=
  normalize_range_id (by linarith [Real.pi_pos]) (by linarith [Real.pi_pos])

/-- For a pillar at `(d, 0)` with `d >= 0` the (defective) distance
formula coincides with the Euclidean one: `sqrt(d*d - 0) = d`, with no
NaN. -/
theorem distance_new_on_axis (d : ℝ) (hd : 0 ≤ d) :
    distance_to Camera.new.entity (Pillar.at d 0) = d ∧
    ¬ distanceIsNaN Camera.new.entity (Pillar.at d 0) := by
  have harg : distSqArg Camera.new.entity (Pillar.at d 0) = d * d := by
    simp [distSqArg, Camera.new, Camera.entity, Pillar.at]
  constructor
  · rw [distance_to, harg]
    exact Real.sqrt_mul_self hd
  · rw [distanceIsNaN, harg]
    nlinarith

/-- `Camera::new` sees a pillar straight ahead within the horizon. -/
theorem can_see_new_on_axis (d : ℝ) (h0 : 0 < d) (h15 : d < 15) :
    Camera.new.can_see (Pillar.at d 0) := by
  obtain ⟨hdist, hnan⟩ := distance_new_on_axis d h0.le
  simp only [Camera.can_see, view_angle_new_on_axis d h0, normalize_zero_pi]
  refine ⟨⟨?_, ?_⟩, hnan, ?_⟩
  · show -(Camera.new.fov_angle / 2) ≤ 0
    simp only [Camera.new]
    linarith [Real.pi_pos]
  · show (0 : ℝ) < Camera.new.fov_angle / 2
    simp only [Camera.new]
    linarith [Real.pi_pos]
  · rw [hdist]
    show d < Camera.new.horizon_distance
    simp only [Camera.new]
    exact h15

/-- Projection of an on-axis pillar: the column is the screen's center
column and the rows are the truncations of `half_rows -+ horizon_rise`. -/
theorem coords_new_on_axis (R C : ℤ) (d : ℝ) (h0 : 0 < d) :
    calculate_pillar_coords ⟨R, C⟩ Camera.new (Pillar.at d 0) =
      ⟨⟨ftrunc ((R.tdiv 2 : ℤ) - horizon_rise Camera.new d (R.tdiv 2) : ℝ), C.tdiv 2⟩,
       ⟨ftrunc ((R.tdiv 2 : ℤ) + horizon_rise Camera.new d (R.tdiv 2) : ℝ), C.tdiv 2⟩⟩ := by
  obtain ⟨hdist, hnan⟩ := distance_new_on_axis d h0.le
  simp only [calculate_pillar_coords, hdist, view_angle_new_on_axis d h0, normalize_zero_pi,
    if_neg hnan]
  simp [ftrunc_zero]

/-- C4: `horizon_rise` is `halfRows` at `dist = fillScreenDistance` and
0 at `dist = horizonDistance` (given the invariant
`fillScreenDistance < horizonDistance`); and for `Camera::new` (origin,
facing 0, `fovAngle = pi/2`, `fillScreenDistance = 2`,
`horizonDistance = 15`) and a pillar at (5, 0), the projected column is
the screen's center column and `top < halfRows < bottom` (for any
screen with `halfRows >= 2`). -/
theorem horizon_rise_and_projection :
    (∀ (camera : Camera) (h : ℤ), camera.fill_screen_distance < camera.horizon_distance →
       horizon_rise camera camera.fill_screen_distance h = (h : ℝ) ∧
       horizon_rise camera camera.horizon_distance h = 0) ∧
    (∀ R C : ℤ, 2 ≤ R.tdiv 2 →
       (calculate_pillar_coords ⟨R, C⟩ Camera.new (Pillar.at 5 0)).line_top.col = C.tdiv 2 ∧
       (calculate_pillar_coords ⟨R, C⟩ Camera.new (Pillar.at 5 0)).line_bottom.col = C.tdiv 2 ∧
       (calculate_pillar_coords ⟨R, C⟩ Camera.new (Pillar.at 5 0)).line_top.row < R.tdiv 2 ∧
       R.tdiv 2 < (calculate_pillar_coords ⟨R, C⟩ Camera.new (Pillar.at 5 0)).line_bottom.row) := by
  constructor
  · intro cam h hlt
    have hne : cam.horizon_distance - cam.fill_screen_distance ≠ 0 := by linarith
    constructor
    · rw [horizon_rise, sub_self, zero_div]
      ring
    · rw [horizon_rise, div_self hne]
      ring
  · intro R C h2
    rw [coords_new_on_axis R C 5 (by norm_num)]
    have hcast : (2 : ℝ) ≤ ((R.tdiv 2 : ℤ) : ℝ) := by exact_mod_cast h2
    have hrise : horizon_rise Camera.new 5 (R.tdiv 2) = ((R.tdiv 2 : ℤ) : ℝ) * (10 / 13) := by
      simp only [horizon_rise, Camera.new]
      norm_num
    refine ⟨rfl, rfl, ?_, ?_⟩
    · show ftrunc (((R.tdiv 2 : ℤ) : ℝ) - horizon_rise Camera.new 5 (R.tdiv 2)) < R.tdiv 2
      rw [hrise]
      have hx : ((R.tdiv 2 : ℤ) : ℝ) - ((R.tdiv 2 : ℤ) : ℝ) * (10 / 13)
          = ((R.tdiv 2 : ℤ) : ℝ) * (3 / 13) := by ring
      rw [hx, ftrunc, if_pos (by nlinarith : (0:ℝ) ≤ ((R.tdiv 2 : ℤ) : ℝ) * (3 / 13))]
      exact Int.floor_lt.mpr (by nlinarith)
    · show R.tdiv 2 < ftrunc (((R.tdiv 2 : ℤ) : ℝ) + horizon_rise Camera.new 5 (R.tdiv 2))
      rw [hrise]
      have hx : ((R.tdiv 2 : ℤ) : ℝ) + ((R.tdiv 2 : ℤ) : ℝ) * (10 / 13)
          = ((R.tdiv 2 : ℤ) : ℝ) * (23 / 13) := by ring
      rw [hx, ftrunc, if_pos (by nlinarith : (0:ℝ) ≤ ((R.tdiv 2 : ℤ) : ℝ) * (23 / 13))]
      have hfl : R.tdiv 2 + 1 ≤ ⌊((R.tdiv 2 : ℤ) : ℝ) * (23 / 13)⌋ := by
        apply Int.le_floor.mpr
        push_cast
        nlinarith
      omega

/-- C4 witness: a 24-row, 80-column screen. -/
theorem horizon_rise_and_projection_witness :
    (horizon_rise Camera.new Camera.new.fill_screen_distance 12 = (12 : ℝ) ∧
     horizon_rise Camera.new Camera.new.horizon_distance 12 = 0) ∧
    ((calculate_pillar_coords ⟨24, 80⟩ Camera.new (Pillar.at 5 0)).line_top.col = (80 : ℤ).tdiv 2 ∧
     (calculate_pillar_coords ⟨24, 80⟩ Camera.new (Pillar.at 5 0)).line_bottom.col = (80 : ℤ).tdiv 2 ∧
     (calculate_pillar_coords ⟨24, 80⟩ Camera.new (Pillar.at 5 0)).line_top.row < (24 : ℤ).tdiv 2 ∧
     (24 : ℤ).tdiv 2 < (calculate_pillar_coords ⟨24, 80⟩ Camera.new (Pillar.at 5 0)).line_bottom.row) :=
  ⟨horizon_rise_and_projection.1 Camera.new 12 (by norm_num [Camera.new]),
   horizon_rise_and_projection.2 24 80 (by decide)⟩

/-! ## C3 and C9: `render_frame` -/

/-- Flattening per-wall op lists tagged with their wall preserves a
pairwise relation between the walls (reflexivity covers ops of the same
wall). -/
theorem pairwise_flatMap_tag {β : Type} {R : Wall → Wall → Prop} (hrefl : ∀ w, R w w)
    (f : Wall → List (Wall × β)) (hf : ∀ w p, p ∈ f w → p.1 = w) :
    ∀ l : List Wall, l.Pairwise R → (l.flatMap f).Pairwise (fun p q => R p.1 q.1)
  | [], _ => by simp
  | w :: l, h => by
    rw [List.flatMap_cons, List.pairwise_append]
    obtain ⟨hw, hl⟩ := List.pairwise_cons.mp h
    refine ⟨?_, pairwise_flatMap_tag hrefl f hf l hl, ?_⟩
    · exact List.pairwise_of_forall_mem_list
        (fun p hp q hq => by rw [hf w p hp, hf w q hq]; exact hrefl w)
    · intro a ha b hb
      obtain ⟨w2, hw2, hbw2⟩ := List.mem_flatMap.mp hb
      rw [hf w a ha, hf w2 b hbw2]
      exact hw w2 hw2

/-- C3: whenever `render_frame` completes (produces its paint calls
rather than panicking), the emitted calls are ordered back-to-front:
for any call issued before another, the issuing wall's camera distance
key is at least the later wall's — equivalently, every paint call of a
strictly farther wall is issued strictly before every call of a nearer
wall (sort ascending by `distance_to`, then reverse). -/
theorem render_frame_painters_algorithm (s : Scene) (camera : Camera) (walls : List Wall)
    (l : List (Wall × PaintCall)) (h : render_frame s camera walls = .ok l) :
    l.Pairwise (fun p q => wallSortKey camera q.1 ≤ wallSortKey camera p.1) := by
  classical
  rw [render_frame] at h
  split at h
  · exact absurd h (by simp)
  · have hl := Except.ok.inj h
    subst hl
    refine @pairwise_flatMap_tag PaintCall
      (fun a b => wallSortKey camera b ≤ wallSortKey camera a)
      (fun w => le_refl _)
      (fun w => List.map (fun op => (w, op)) (if camera.can_see_viewable w then wallOps s camera w else []))
      (fun w p hp => by obtain ⟨op, _, hop⟩ := List.mem_map.mp hp; rw [← hop])
      _ ?_
    rw [List.pairwise_reverse]
    have hs := @List.sorted_insertionSort Wall (wallLe camera) _
      ⟨fun a b => le_total _ _⟩ ⟨fun a b c hab hbc => le_trans hab hbc⟩
      (pfilter (fun w => camera.can_see_viewable w) walls)
    exact List.Pairwise.imp (fun hab => hab) hs

/-- C9 (code_bug evidence): `render_frame` can abort the process.  With
the camera at `Camera::new` and a single wall whose pillars sit at (0,1)
and (5,0), the wall is visible (pillar (5,0) is straight ahead within
the horizon), but the wall's own distance key is `sqrt(0 - 1) = NaN`,
so `NotNan::new(...).expect(...)` panics while building the sort keys. -/
theorem render_frame_panics_on_nan :
    render_frame ⟨24, 80⟩ Camera.new [⟨Pillar.at 0 1, Pillar.at 5 0⟩] =
      .error .nanDistance := by
  classical
  have hvis : Camera.new.can_see_viewable ⟨Pillar.at 0 1, Pillar.at 5 0⟩ :=
    Or.inr (can_see_new_on_axis 5 (by norm_num) (by norm_num))
  have hnan : distanceIsNaN Camera.new.entity (wallEntity ⟨Pillar.at 0 1, Pillar.at 5 0⟩) := by
    rw [distanceIsNaN]
    norm_num [distSqArg, wallEntity, Camera.new, Camera.entity, Pillar.at]
  have hfil : pfilter (fun w => Camera.new.can_see_viewable w)
      [(⟨Pillar.at 0 1, Pillar.at 5 0⟩ : Wall)] = [⟨Pillar.at 0 1, Pillar.at 5 0⟩] := by
    simp only [pfilter, if_pos hvis]
  rw [render_frame, hfil, if_pos ⟨⟨Pillar.at 0 1, Pillar.at 5 0⟩, List.mem_singleton.mpr rfl, hnan⟩]

/-- Projection of the pillar at (4,0) on a 24x80 screen. -/
theorem coords_24_80_4 :
    calculate_pillar_coords ⟨24, 80⟩ Camera.new (Pillar.at 4 0) = ⟨⟨1, 40⟩, ⟨22, 40⟩⟩ := by
  rw [coords_new_on_axis 24 80 4 (by norm_num)]
  rw [show (24 : ℤ).tdiv 2 = 12 from rfl, show (80 : ℤ).tdiv 2 = 40 from rfl]
  rw [show horizon_rise Camera.new 4 (12 : ℤ) = 132 / 13 from by
    simp only [horizon_rise, Camera.new]
    norm_num]
  rw [show (((12 : ℤ) : ℝ) - 132 / 13) = 24 / 13 from by norm_num,
    show (((12 : ℤ) : ℝ) + 132 / 13) = 288 / 13 from by norm_num]
  rw [show ftrunc ((24 : ℝ) / 13) = 1 from by
      rw [ftrunc, if_pos (by norm_num : (0:ℝ) ≤ 24 / 13)]
      norm_num [Int.floor_eq_iff],
    show ftrunc ((288 : ℝ) / 13) = 22 from by
      rw [ftrunc, if_pos (by norm_num : (0:ℝ) ≤ 288 / 13)]
      norm_num [Int.floor_eq_iff]]

/-- Projection of the pillar at (5,0) on a 24x80 screen. -/
theorem coords_24_80_5 :
    calculate_pillar_coords ⟨24, 80⟩ Camera.new (Pillar.at 5 0) = ⟨⟨2, 40⟩, ⟨21, 40⟩⟩ := by
  rw [coords_new_on_axis 24 80 5 (by norm_num)]
  rw [show (24 : ℤ).tdiv 2 = 12 from rfl, show (80 : ℤ).tdiv 2 = 40 from rfl]
  rw [show horizon_rise Camera.new 5 (12 : ℤ) = 120 / 13 from by
    simp only [horizon_rise, Camera.new]
    norm_num]
  rw [show (((12 : ℤ) : ℝ) - 120 / 13) = 36 / 13 from by norm_num,
    show (((12 : ℤ) : ℝ) + 120 / 13) = 276 / 13 from by norm_num]
  rw [show ftrunc ((36 : ℝ) / 13) = 2 from by
      rw [ftrunc, if_pos (by norm_num : (0:ℝ) ≤ 36 / 13)]
      norm_num [Int.floor_eq_iff],
    show ftrunc ((276 : ℝ) / 13) = 21 from by
      rw [ftrunc, if_pos (by norm_num : (0:ℝ) ≤ 276 / 13)]
      norm_num [Int.floor_eq_iff]]

/-- The wall between the two on-axis pillars is 0 columns wide on
screen, so no triangle fills are emitted — just the four outlines. -/
theorem wallOps_24_80 :
    wallOps ⟨24, 80⟩ Camera.new ⟨Pillar.at 4 0, Pillar.at 5 0⟩ =
      [.line ⟨1, 40⟩ ⟨22, 40⟩ '#', .line ⟨2, 40⟩ ⟨21, 40⟩ '#',
       .line ⟨1, 40⟩ ⟨2, 40⟩ '#', .line ⟨22, 40⟩ ⟨21, 40⟩ '#'] := by
  rw [wallOps]
  rw [show (⟨Pillar.at 4 0, Pillar.at 5 0⟩ : Wall).pillar1 = Pillar.at 4 0 from rfl,
    show (⟨Pillar.at 4 0, Pillar.at 5 0⟩ : Wall).pillar2 = Pillar.at 5 0 from rfl,
    coords_24_80_4, coords_24_80_5]
  norm_num

/-- Full evaluation of `render_frame` on one visible wall. -/
theorem render_frame_eval_two_pillars :
    render_frame ⟨24, 80⟩ Camera.new [⟨Pillar.at 4 0, Pillar.at 5 0⟩] =
      .ok [(⟨Pillar.at 4 0, Pillar.at 5 0⟩, .line ⟨1, 40⟩ ⟨22, 40⟩ '#'),
           (⟨Pillar.at 4 0, Pillar.at 5 0⟩, .line ⟨2, 40⟩ ⟨21, 40⟩ '#'),
           (⟨Pillar.at 4 0, Pillar.at 5 0⟩, .line ⟨1, 40⟩ ⟨2, 40⟩ '#'),
           (⟨Pillar.at 4 0, Pillar.at 5 0⟩, .line ⟨22, 40⟩ ⟨21, 40⟩ '#')] := by
  classical
  have hvis : Camera.new.can_see_viewable ⟨Pillar.at 4 0, Pillar.at 5 0⟩ :=
    Or.inl (can_see_new_on_axis 4 (by norm_num) (by norm_num))
  have hfil : pfilter (fun w => Camera.new.can_see_viewable w)
      [(⟨Pillar.at 4 0, Pillar.at 5 0⟩ : Wall)] = [⟨Pillar.at 4 0, Pillar.at 5 0⟩] := by
    simp only [pfilter, if_pos hvis]
  have hnonan : ¬ ∃ w ∈ [(⟨Pillar.at 4 0, Pillar.at 5 0⟩ : Wall)],
      distanceIsNaN Camera.new.entity (wallEntity w) := by
    rintro ⟨w, hw, hnan⟩
    rw [List.mem_singleton] at hw
    subst hw
    rw [distanceIsNaN] at hnan
    norm_num [distSqArg, wallEntity, Camera.new, Camera.entity, Pillar.at] at hnan
  rw [render_frame, hfil, if_neg hnonan]
  rw [show List.insertionSort (wallLe Camera.new) [(⟨Pillar.at 4 0, Pillar.at 5 0⟩ : Wall)]
      = [⟨Pillar.at 4 0, Pillar.at 5 0⟩] from by
    simp [List.insertionSort, List.orderedInsert]]
  dsimp only
  rw [List.reverse_singleton]
  rw [show ([(⟨Pillar.at 4 0, Pillar.at 5 0⟩ : Wall)]).flatMap (fun w =>
      (if Camera.new.can_see_viewable w then wallOps ⟨24, 80⟩ Camera.new w else []).map
        (fun op => (w, op)))
      = (wallOps ⟨24, 80⟩ Camera.new ⟨Pillar.at 4 0, Pillar.at 5 0⟩).map
          (fun op => ((⟨Pillar.at 4 0, Pillar.at 5 0⟩ : Wall), op)) from by
    rw [List.flatMap_cons, List.flatMap_nil, List.append_nil, if_pos hvis]]
  rw [wallOps_24_80]
  rfl

/-- C3 witness: a frame with one visible wall between on-axis pillars at
(4,0) and (5,0), its four outline calls in back-to-front-compatible
order. -/
theorem render_frame_painters_algorithm_witness :
    render_frame ⟨24, 80⟩ Camera.new [⟨Pillar.at 4 0, Pillar.at 5 0⟩] =
      .ok [(⟨Pillar.at 4 0, Pillar.at 5 0⟩, .line ⟨1, 40⟩ ⟨22, 40⟩ '#'),
           (⟨Pillar.at 4 0, Pillar.at 5 0⟩, .line ⟨2, 40⟩ ⟨21, 40⟩ '#'),
           (⟨Pillar.at 4 0, Pillar.at 5 0⟩, .line ⟨1, 40⟩ ⟨2, 40⟩ '#'),
           (⟨Pillar.at 4 0, Pillar.at 5 0⟩, .line ⟨22, 40⟩ ⟨21, 40⟩ '#')] ∧
    List.Pairwise (fun p q => wallSortKey Camera.new q.1 ≤ wallSortKey Camera.new p.1)
      [((⟨Pillar.at 4 0, Pillar.at 5 0⟩ : Wall), (PaintCall.line ⟨1, 40⟩ ⟨22, 40⟩ '#' : PaintCall)),
       (⟨Pillar.at 4 0, Pillar.at 5 0⟩, PaintCall.line ⟨2, 40⟩ ⟨21, 40⟩ '#'),
       (⟨Pillar.at 4 0, Pillar.at 5 0⟩, PaintCall.line ⟨1, 40⟩ ⟨2, 40⟩ '#'),
       (⟨Pillar.at 4 0, Pillar.at 5 0⟩, PaintCall.line ⟨22, 40⟩ ⟨21, 40⟩ '#')] :=
  ⟨render_frame_eval_two_pillars,
   render_frame_painters_algorithm ⟨24, 80⟩ Camera.new [⟨Pillar.at 4 0, Pillar.at 5 0⟩] _
     render_frame_eval_two_pillars⟩

end CursedMaze
